import Mathlib

/-!
Verification of the history-reconciling subscriber of
`src/zenoh-ext/src/querying_subscriber.rs` (zenoh).

The reconciliation core is shallowly embedded:
* `Timestamp` models `zenoh::time::Timestamp` as a (time value, originator id)
  pair with the lexicographic strict order used by the `BTreeMap` key order.
* `Sample` models `zenoh::sample::Sample` restricted to the fields this core
  reads: key expression, payload, kind and optional timestamp.
* `MergeQueue` (lines 272-321 of the source) keeps the `untimestamped`
  `VecDeque` as a list with `push_back` appending on the right, and the
  `timstamped` `BTreeMap` (sic, the source's field name) as an association
  list kept sorted by key; `BTreeMap::entry(k).or_insert(v)` becomes
  `insertIfAbsent`, and `BTreeMap::into_values` becomes `List.map Prod.snd`
  over the sorted list.
* `InnerState` (lines 323-326), `register_handler` (859-863),
  `RepliesHandler::drop` (762-780, here `releaseHandler`), the subscriber
  callback (628-652, here `sub_callback`) and `run_fetch` (865-884) are
  translated state-passing style: each operation maps a state to a new state
  plus the list of samples delivered synchronously to the registered callback
  (and, for the fetch reply sink, the list of observability log entries
  emitted via `tracing::debug!`).
* The externally supplied fetch function is modelled by its synchronous
  effect trace: the list of extraction results (`Except String Sample`,
  one per invocation of the reply sink closure) followed by its return
  value (`Except String Unit`), matching the shape
  `FnOnce(Box<dyn Fn(TryIntoSample)>) -> ZResult<()>`.
* The `u64` field `pending_fetches` is modelled as `Nat`; `-= 1` becomes
  truncated subtraction, exercised only where the count is positive, as in
  every balanced register/release trace.
* The clock read `SystemTime::now().duration_since(UNIX_EPOCH).unwrap()` is
  modelled by an `Option Nat` argument to `sub_callback`: `none` is a
  pre-epoch clock, on which `unwrap` panics, rendered as result `none`.
-/

namespace QuerySub

/-- Timestamp: a (time value, originator id) pair, totally ordered
lexicographically; models `zenoh::time::Timestamp` as a `BTreeMap` key. -/
structure Timestamp where
  time : Nat
  tid : Nat
deriving DecidableEq, Repr

/-- The strict order on timestamps: lexicographic on (time, originator id). -/
def Timestamp.lt (a b : Timestamp) : Prop :=
  a.time < b.time ∨ (a.time = b.time ∧ a.tid < b.tid)

instance (a b : Timestamp) : Decidable (Timestamp.lt a b) := by
  unfold Timestamp.lt
  infer_instance

/-- Sample kind (`put`/`delete`). -/
inductive SampleKind where
  | put
  | delete
deriving DecidableEq, Repr

/-- A sample restricted to the fields the reconciliation core reads. -/
structure Sample where
  key_expr : String
  payload : Nat
  kind : SampleKind
  timestamp : Option Timestamp
deriving DecidableEq, Repr

/-- Insertion into a key-sorted association list only if the key is absent:
the model of `BTreeMap::entry(ts).or_insert(sample)` (source line 291). -/
def insertIfAbsent (k : Timestamp) (v : Sample) :
    List (Timestamp × Sample) → List (Timestamp × Sample)
  | [] => [(k, v)]
  | (k', v') :: rest =>
    if Timestamp.lt k k' then (k, v) :: (k', v') :: rest
    else if k = k' then (k', v') :: rest
    else (k', v') :: insertIfAbsent k v rest

/-- First value stored under key `k`, if any. -/
def lookupTs (k : Timestamp) (l : List (Timestamp × Sample)) : Option Sample :=
  (l.find? (fun kv => kv.1 = k)).map Prod.snd

/-- MergeQueue (source lines 272-275): untimestamped samples in arrival
order, timestamped samples as a key-sorted association list. -/
structure MergeQueue where
  untimestamped : List Sample
  timstamped : List (Timestamp × Sample)
deriving DecidableEq, Repr

/-- `MergeQueue::new` (lines 278-283). -/
def MergeQueue.new : MergeQueue :=
  { untimestamped := [], timstamped := [] }

/-- `MergeQueue::len` (lines 285-287). -/
def MergeQueue.len (q : MergeQueue) : Nat :=
  q.untimestamped.length + q.timstamped.length

/-- `MergeQueue::push` (lines 289-295): a timestamped sample goes to the
map, first write wins; an untimestamped one is appended on the right. -/
def MergeQueue.push (q : MergeQueue) (s : Sample) : MergeQueue :=
  match s.timestamp with
  | some ts => { q with timstamped := insertIfAbsent ts s q.timstamped }
  | none => { q with untimestamped := q.untimestamped ++ [s] }

/-- The drained values (source lines 309-321): the iterator pops the
untimestamped samples first, then the map's values in ascending key order. -/
structure MergeQueueValues where
  untimestamped : List Sample
  timstamped : List Sample
deriving DecidableEq, Repr

/-- The full sequence the `MergeQueueValues` iterator yields. -/
def MergeQueueValues.toList (v : MergeQueueValues) : List Sample :=
  v.untimestamped ++ v.timstamped

/-- `MergeQueue::drain` (lines 297-307): swap both partitions out,
leaving the queue empty, and expose the taken contents. -/
def MergeQueue.drain (q : MergeQueue) : MergeQueueValues × MergeQueue :=
  ({ untimestamped := q.untimestamped,
     timstamped := q.timstamped.map Prod.snd },
   MergeQueue.new)

/-- The list of samples a drain delivers, in delivery order. -/
def MergeQueue.drainList (q : MergeQueue) : List Sample :=
  (q.drain).1.toList

/-- Push a whole list of samples, left to right. -/
def pushAll (q : MergeQueue) (ss : List Sample) : MergeQueue :=
  ss.foldl MergeQueue.push q

/-- InnerState (source lines 323-326): the mutex-guarded pair of the
pending fetch count and the merge queue. -/
structure InnerState where
  pending_fetches : Nat
  merge_queue : MergeQueue
deriving DecidableEq, Repr

/-- The state a `FetchingSubscriber` starts from (lines 622-625). -/
def InnerState.init : InnerState :=
  { pending_fetches := 0, merge_queue := MergeQueue.new }

/-- `register_handler` (lines 859-863): increment the pending count and hand
out one completion credit. -/
def register_handler (st : InnerState) : InnerState :=
  { st with pending_fetches := st.pending_fetches + 1 }

/-- `RepliesHandler::drop` (lines 762-780): decrement the pending count;
when it reaches zero, drain the merge queue and deliver every drained sample
to the callback before returning. The second component is the list of
samples delivered synchronously by this release. -/
def releaseHandler (st : InnerState) : InnerState × List Sample :=
  let p := st.pending_fetches - 1
  if p = 0 then
    ({ pending_fetches := p, merge_queue := (st.merge_queue.drain).2 },
     st.merge_queue.drainList)
  else
    ({ st with pending_fetches := p }, [])

/-- The sample the subscriber callback buffers (source lines 643-649): the
original sample rebuilt with `SampleBuilder::timestamp`, the timestamp
being the sample's own if present, else the synthesized
`Timestamp::new(now, session_id)`. -/
def withTs (sid now : Nat) (s : Sample) : Sample :=
  { s with timestamp := some (s.timestamp.getD { time := now, tid := sid }) }

/-- The subscriber callback (source lines 628-652). `clock` is the result of
`SystemTime::now().duration_since(UNIX_EPOCH)`: `none` models a pre-epoch
wall clock, on which the source's `.unwrap()` panics — rendered here as
result `none`. On `some`, the result is the new state and the samples
delivered immediately to the callback. -/
def sub_callback (sid : Nat) (clock : Option Nat) (st : InnerState)
    (s : Sample) : Option (InnerState × List Sample) :=
  if st.pending_fetches = 0 then
    some (st, [s])
  else
    match clock with
    | none => none
    | some now =>
      some ({ st with merge_queue := st.merge_queue.push (withTs sid now s) },
            [])

/-- The reply sink closure built in `run_fetch` (lines 876-883): a reply
whose extraction succeeds is pushed into the merge queue; a failing one
leaves the state unchanged and emits one observability log entry. -/
def reply_sink (st : InnerState) (r : Except String Sample) :
    InnerState × List String :=
  match r with
  | .ok s => ({ st with merge_queue := st.merge_queue.push s }, [])
  | .error e => (st, [e])

/-- Feed a whole list of extraction results through the reply sink in
arrival order, accumulating the log entries. -/
def applyReplies (st : InnerState) :
    List (Except String Sample) → InnerState × List String
  | [] => (st, [])
  | r :: rs =>
    ((applyReplies (reply_sink st r).1 rs).1,
     (reply_sink st r).2 ++ (applyReplies (reply_sink st r).1 rs).2)

/-- The outcome of one fetch: the value returned to the caller, the final
shared state, the samples delivered by the credit release, and the
observability log entries. -/
structure FetchOutcome where
  result : Except String Unit
  state : InnerState
  delivered : List Sample
  logs : List String
deriving Repr

/-- `run_fetch` (lines 865-884), for a state in which the handler's credit is
already registered: the fetch function — modelled by its synchronous effect
trace `replies` and its return value `res` — feeds each reply through the
sink closure, then the `RepliesHandler` moved into the closure is dropped,
releasing the credit; the fetch function's own result is returned verbatim. -/
def run_fetch (st : InnerState) (replies : List (Except String Sample))
    (res : Except String Unit) : FetchOutcome :=
  let fed := applyReplies st replies
  let rel := releaseHandler fed.1
  { result := res, state := rel.1, delivered := rel.2, logs := fed.2 }

/-- `FetchBuilder::wait` (lines 840-844), the body of
`FetchingSubscriber::fetch`: acquire a credit via `register_handler`, then
`run_fetch`. -/
def fetchOp (st : InnerState) (replies : List (Except String Sample))
    (res : Except String Unit) : FetchOutcome :=
  run_fetch (register_handler st) replies res

/-- An event hitting the shared state: a credit registration, a credit
release, a live sample arriving from the push subscription (with the
wall-clock reading at that instant), or a fetch reply arriving at the sink. -/
inductive Event where
  | register : Event
  | release : Event
  | live (s : Sample) (now : Nat) : Event
  | reply (r : Except String Sample) : Event
deriving Repr

/-- The state transition of one event. Live events use the in-range clock
branch of `sub_callback` (the `getD` default is never reached, since a
`some` clock never panics). -/
def stepState (sid : Nat) (st : InnerState) : Event → InnerState
  | .register => register_handler st
  | .release => (releaseHandler st).1
  | .live s now => ((sub_callback sid (some now) st s).getD (st, [])).1
  | .reply r => (reply_sink st r).1

/-- The samples delivered synchronously to the callback by one event. -/
def stepOut (sid : Nat) (st : InnerState) : Event → List Sample
  | .register => []
  | .release => (releaseHandler st).2
  | .live s now => ((sub_callback sid (some now) st s).getD (st, [])).2
  | .reply _ => []

/-- Whether an event fires drain-and-deliver: exactly the releases that
bring the pending count to zero (`state.pending_fetches -= 1` followed by
the `== 0` test, source lines 765-770). -/
def stepFires (st : InnerState) : Event → Bool
  | .release => st.pending_fetches - 1 = 0
  | _ => false

/-- Run a trace of events from a state. -/
def runFrom (sid : Nat) (st : InnerState) (tr : List Event) : InnerState :=
  tr.foldl (stepState sid) st

/-- The per-event drain-and-deliver firing flags along a trace. -/
def firesFrom (sid : Nat) (st : InnerState) : List Event → List Bool
  | [] => []
  | e :: tr => stepFires st e :: firesFrom sid (stepState sid st e) tr

/-- Number of `register` events in a trace. -/
def regs (tr : List Event) : Nat :=
  tr.countP (fun e => e matches Event.register)

/-- Number of `release` events in a trace. -/
def rels (tr : List Event) : Nat :=
  tr.countP (fun e => e matches Event.release)

/-- Event at position `k` of a trace (defaulting to `register` past the
end). -/
def evAt (tr : List Event) (k : Nat) : Event :=
  tr.getD k Event.register

/-- Strict ordering of two samples by their timestamps; samples without a
timestamp are unordered. -/
def tsLT (a b : Sample) : Prop :=
  match a.timestamp, b.timestamp with
  | some ta, some tb => Timestamp.lt ta tb
  | _, _ => False

/-- Keys of the sorted association list are pairwise strictly increasing. -/
def tsSorted (l : List (Timestamp × Sample)) : Prop :=
  List.Pairwise (fun a b => Timestamp.lt a.1 b.1) l

instance (l : List (Timestamp × Sample)) : Decidable (tsSorted l) := by
  unfold tsSorted
  infer_instance

/-- Well-formedness of a merge queue, preserved by `push` from `new`: the
map is key-sorted, every stored sample carries its key as timestamp, and
every untimestamped-partition sample has no timestamp. -/
def MergeQueue.WF (q : MergeQueue) : Prop :=
  tsSorted q.timstamped ∧
  (∀ kv ∈ q.timstamped, (Prod.snd kv).timestamp = some kv.1) ∧
  (∀ s ∈ q.untimestamped, s.timestamp = none)

/-- A concrete untimestamped sample, used by witnesses. -/
def sampleA : Sample :=
  { key_expr := "demo/a", payload := 1, kind := SampleKind.put,
    timestamp := none }

/-- A concrete timestamped sample, used by witnesses. -/
def sampleB : Sample :=
  { key_expr := "demo/b", payload := 2, kind := SampleKind.put,
    timestamp := some { time := 10, tid := 7 } }

/-- A second sample carrying exactly the same timestamp as `sampleB`. -/
def sampleC : Sample :=
  { key_expr := "demo/c", payload := 3, kind := SampleKind.put,
    timestamp := some { time := 10, tid := 7 } }

/-- A sample carrying a timestamp distinct from that of `sampleB`. -/
def sampleD : Sample :=
  { key_expr := "demo/d", payload := 4, kind := SampleKind.delete,
    timestamp := some { time := 20, tid := 3 } }

/-- A concrete state with one pending fetch and an empty queue. -/
def busyState : InnerState :=
  { pending_fetches := 1, merge_queue := MergeQueue.new }

/-- A concrete state with one pending fetch and `sampleB` buffered. -/
def demoBusy : InnerState :=
  { pending_fetches := 1, merge_queue := MergeQueue.new.push sampleB }

/-- A two-overlapping-fetches demonstration trace. -/
def demoTrace : List Event :=
  [Event.register, Event.live sampleA 5, Event.register,
   Event.reply (Except.ok sampleB), Event.release, Event.release]

theorem Timestamp.lt_irrefl (a : Timestamp) : ¬ Timestamp.lt a a := by
  simp [Timestamp.lt]

theorem Timestamp.lt_trans {a b c : Timestamp} (h1 : Timestamp.lt a b)
    (h2 : Timestamp.lt b c) : Timestamp.lt a c := by
  unfold Timestamp.lt at *
  omega

theorem Timestamp.lt_asymm {a b : Timestamp} (h : Timestamp.lt a b) :
    ¬ Timestamp.lt b a := by
  unfold Timestamp.lt at *
  omega

theorem Timestamp.lt_total (a b : Timestamp) :
    Timestamp.lt a b ∨ a = b ∨ Timestamp.lt b a := by
  rcases a with ⟨ta, ia⟩
  rcases b with ⟨tb, ib⟩
  simp only [Timestamp.lt, Timestamp.mk.injEq]
  omega

theorem mem_insertIfAbsent {k : Timestamp} {v : Sample}
    {l : List (Timestamp × Sample)} {x : Timestamp × Sample}
    (h : x ∈ insertIfAbsent k v l) : x = (k, v) ∨ x ∈ l := by
  induction l with
  | nil => simpa [insertIfAbsent] using h
  | cons hd tl ih =>
    obtain ⟨k', v'⟩ := hd
    by_cases h1 : Timestamp.lt k k'
    · simp only [insertIfAbsent, if_pos h1, List.mem_cons] at h
      simp only [List.mem_cons]
      tauto
    · by_cases h2 : k = k'
      · simp only [insertIfAbsent, if_neg h1, if_pos h2, List.mem_cons] at h
        simp only [List.mem_cons]
        tauto
      · simp only [insertIfAbsent, if_neg h1, if_neg h2, List.mem_cons] at h
        simp only [List.mem_cons]
        rcases h with h | h
        · tauto
        · rcases ih h with h' | h' <;> tauto

theorem tsSorted_insertIfAbsent {k : Timestamp} {v : Sample}
    {l : List (Timestamp × Sample)} (hs : tsSorted l) :
    tsSorted (insertIfAbsent k v l) := by
  induction l with
  | nil => simp [insertIfAbsent, tsSorted]
  | cons hd tl ih =>
    obtain ⟨k', v'⟩ := hd
    rcases List.pairwise_cons.mp hs with ⟨hhd, htl⟩
    by_cases h1 : Timestamp.lt k k'
    · simp only [insertIfAbsent, if_pos h1]
      refine List.pairwise_cons.mpr ⟨?_, hs⟩
      intro x hx
      rcases List.mem_cons.mp hx with rfl | hx
      · exact h1
      · exact Timestamp.lt_trans h1 (hhd x hx)
    · by_cases h2 : k = k'
      · simpa only [insertIfAbsent, if_neg h1, if_pos h2] using hs
      · simp only [insertIfAbsent, if_neg h1, if_neg h2]
        refine List.pairwise_cons.mpr ⟨?_, ih htl⟩
        intro x hx
        rcases mem_insertIfAbsent hx with rfl | hx
        · rcases Timestamp.lt_total k k' with h | h | h
          · exact absurd h h1
          · exact absurd h h2
          · exact h
        · exact hhd x hx

theorem insertIfAbsent_mem_noop {k : Timestamp} {v : Sample}
    {l : List (Timestamp × Sample)} (hs : tsSorted l)
    (hk : k ∈ l.map Prod.fst) : insertIfAbsent k v l = l := by
  induction l with
  | nil => simp at hk
  | cons hd tl ih =>
    obtain ⟨k', v'⟩ := hd
    rcases List.pairwise_cons.mp hs with ⟨hhd, htl⟩
    simp only [List.map_cons, List.mem_cons] at hk
    by_cases h2 : k = k'
    · subst h2
      simp [insertIfAbsent, Timestamp.lt_irrefl k]
    · have hk' : k ∈ tl.map Prod.fst := by
        rcases hk with h | h
        · exact absurd h h2
        · exact h
      rcases List.mem_map.mp hk' with ⟨x, hx, hxk⟩
      have hlt : Timestamp.lt k' k := hxk ▸ hhd x hx
      simp only [insertIfAbsent, if_neg (Timestamp.lt_asymm hlt), if_neg h2]
      rw [ih htl hk']

theorem insertIfAbsent_comm {k1 k2 : Timestamp} {v1 v2 : Sample}
    (hne : k1 ≠ k2) (l : List (Timestamp × Sample)) :
    insertIfAbsent k2 v2 (insertIfAbsent k1 v1 l)
      = insertIfAbsent k1 v1 (insertIfAbsent k2 v2 l) := by
  induction l with
  | nil =>
    rcases Timestamp.lt_total k1 k2 with h | h | h
    · simp [insertIfAbsent, h, Timestamp.lt_asymm h, hne, Ne.symm hne]
    · exact absurd h hne
    · simp [insertIfAbsent, h, Timestamp.lt_asymm h, hne, Ne.symm hne]
  | cons hd tl ih =>
    obtain ⟨k, v⟩ := hd
    rcases Timestamp.lt_total k1 k with a1 | a1 | a1 <;>
      rcases Timestamp.lt_total k2 k with a2 | a2 | a2
    · rcases Timestamp.lt_total k1 k2 with b | b | b
      · simp [insertIfAbsent, a1, a2, b, Timestamp.lt_asymm b, hne,
          Ne.symm hne]
      · exact absurd b hne
      · simp [insertIfAbsent, a1, a2, b, Timestamp.lt_asymm b, hne,
          Ne.symm hne]
    · subst a2
      simp [insertIfAbsent, a1, Timestamp.lt_asymm a1, hne, Ne.symm hne,
        Timestamp.lt_irrefl k2]
    · have hb : Timestamp.lt k1 k2 := Timestamp.lt_trans a1 a2
      have hk2k : k2 ≠ k := fun h => Timestamp.lt_irrefl k (h ▸ a2)
      simp [insertIfAbsent, a1, Timestamp.lt_asymm a2, Timestamp.lt_asymm hb,
        Ne.symm hne, hk2k]
    · subst a1
      simp [insertIfAbsent, a2, Timestamp.lt_asymm a2, hne,
        Timestamp.lt_irrefl k1]
    · exact absurd (a1.trans a2.symm) hne
    · subst a1
      simp [insertIfAbsent, Timestamp.lt_asymm a2, Ne.symm hne,
        Timestamp.lt_irrefl k1]
    · have hb : Timestamp.lt k2 k1 := Timestamp.lt_trans a2 a1
      have hk1k : k1 ≠ k := fun h => Timestamp.lt_irrefl k (h ▸ a1)
      simp [insertIfAbsent, a2, Timestamp.lt_asymm a1, Timestamp.lt_asymm hb,
        hne, hk1k]
    · subst a2
      simp [insertIfAbsent, Timestamp.lt_asymm a1, hne,
        Timestamp.lt_irrefl k2]
    · have hk1k : k1 ≠ k := fun h => Timestamp.lt_irrefl k (h ▸ a1)
      have hk2k : k2 ≠ k := fun h => Timestamp.lt_irrefl k (h ▸ a2)
      simp [insertIfAbsent, Timestamp.lt_asymm a1, Timestamp.lt_asymm a2,
        hk1k, hk2k, ih]

theorem lookupTs_cons {k a : Timestamp} {b : Sample}
    {rest : List (Timestamp × Sample)} :
    lookupTs k ((a, b) :: rest) = if a = k then some b else lookupTs k rest := by
  by_cases h : a = k
  · simp [lookupTs, List.find?_cons, h]
  · simp [lookupTs, List.find?_cons, h]

theorem lookupTs_eq_none {k : Timestamp} {l : List (Timestamp × Sample)}
    (h : ∀ kv ∈ l, kv.1 ≠ k) : lookupTs k l = none := by
  unfold lookupTs
  rw [List.find?_eq_none.mpr]
  · rfl
  · intro x hx
    simpa using h x hx

theorem lookupTs_insertIfAbsent_self {k : Timestamp} {v : Sample}
    {l : List (Timestamp × Sample)} (hs : tsSorted l) :
    lookupTs k (insertIfAbsent k v l) = some ((lookupTs k l).getD v) := by
  induction l with
  | nil => simp [insertIfAbsent, lookupTs]
  | cons hd tl ih =>
    obtain ⟨k', v'⟩ := hd
    rcases List.pairwise_cons.mp hs with ⟨hhd, htl⟩
    by_cases h1 : Timestamp.lt k k'
    · have hne : k' ≠ k := fun e => Timestamp.lt_irrefl k (e ▸ h1)
      have hnone : lookupTs k ((k', v') :: tl) = none := by
        apply lookupTs_eq_none
        intro kv hkv
        rcases List.mem_cons.mp hkv with rfl | hkv
        · exact hne
        · have hlt : Timestamp.lt k kv.1 :=
            Timestamp.lt_trans h1 (hhd kv hkv)
          exact fun e => Timestamp.lt_irrefl k (e ▸ hlt)
      rw [hnone]
      simp [insertIfAbsent, h1, lookupTs_cons]
    · by_cases h2 : k = k'
      · subst h2
        simp [insertIfAbsent, h1, lookupTs_cons]
      · simp only [insertIfAbsent, if_neg h1, if_neg h2, lookupTs_cons,
          if_neg (Ne.symm h2), ih htl]

theorem lookupTs_insertIfAbsent_ne {k k' : Timestamp} {v : Sample}
    {l : List (Timestamp × Sample)} (h : k' ≠ k) :
    lookupTs k' (insertIfAbsent k v l) = lookupTs k' l := by
  induction l with
  | nil => simp [insertIfAbsent, lookupTs, Ne.symm h]
  | cons hd tl ih =>
    obtain ⟨a, b⟩ := hd
    by_cases h1 : Timestamp.lt k a
    · simp only [insertIfAbsent, if_pos h1, lookupTs_cons,
        if_neg (Ne.symm h)]
    · by_cases h2 : k = a
      · simp only [insertIfAbsent, if_neg h1, if_pos h2]
      · simp only [insertIfAbsent, if_neg h1, if_neg h2, lookupTs_cons, ih]

theorem WF_new : MergeQueue.new.WF := by
  refine ⟨List.Pairwise.nil, ?_, ?_⟩ <;> simp [MergeQueue.new]

theorem WF_push {q : MergeQueue} {s : Sample} (h : q.WF) :
    (q.push s).WF := by
  rcases h with ⟨hsort, hcoh, hunt⟩
  cases hts : s.timestamp with
  | some ts =>
    refine ⟨?_, ?_, ?_⟩
    · simp only [MergeQueue.push, hts]
      exact tsSorted_insertIfAbsent hsort
    · intro kv hkv
      simp only [MergeQueue.push, hts] at hkv
      rcases mem_insertIfAbsent hkv with rfl | hkv
      · exact hts
      · exact hcoh kv hkv
    · intro x hx
      simp only [MergeQueue.push, hts] at hx
      exact hunt x hx
  | none =>
    refine ⟨?_, ?_, ?_⟩
    · simpa only [MergeQueue.push, hts] using hsort
    · intro kv hkv
      simp only [MergeQueue.push, hts] at hkv
      exact hcoh kv hkv
    · intro x hx
      simp only [MergeQueue.push, hts, List.mem_append,
        List.mem_singleton] at hx
      rcases hx with hx | rfl
      · exact hunt x hx
      · exact hts

theorem WF_pushAll {q : MergeQueue} (h : q.WF) (ss : List Sample) :
    (pushAll q ss).WF := by
  induction ss generalizing q with
  | nil => exact h
  | cons s ss ih => exact ih (WF_push h)

theorem untimestamped_pushAll (q : MergeQueue) (ss : List Sample) :
    (pushAll q ss).untimestamped
      = q.untimestamped ++ ss.filter (fun s => s.timestamp = none) := by
  induction ss generalizing q with
  | nil => simp [pushAll]
  | cons s ss ih =>
    have hstep : pushAll q (s :: ss) = pushAll (q.push s) ss := rfl
    rw [hstep, ih]
    cases hts : s.timestamp with
    | some ts => simp [MergeQueue.push, hts, List.filter_cons]
    | none => simp [MergeQueue.push, hts, List.filter_cons]

theorem pairwise_tsLT_of_sorted {l : List (Timestamp × Sample)}
    (hs : tsSorted l)
    (hc : ∀ kv ∈ l, (Prod.snd kv).timestamp = some kv.1) :
    List.Pairwise tsLT (l.map Prod.snd) := by
  induction l with
  | nil => simp
  | cons hd tl ih =>
    rcases List.pairwise_cons.mp hs with ⟨hhd, htl⟩
    simp only [List.map_cons]
    refine List.pairwise_cons.mpr
      ⟨?_, ih htl (fun kv h => hc kv (List.mem_cons_of_mem _ h))⟩
    intro x hx
    rcases List.mem_map.mp hx with ⟨kv, hkv, rfl⟩
    have h1 := hc hd (List.mem_cons_self _ _)
    have h2 := hc kv (List.mem_cons_of_mem _ hkv)
    simpa [tsLT, h1, h2] using hhd kv hkv

theorem mem_keys_of_lookupTs {l : List (Timestamp × Sample)} {ts : Timestamp}
    {v : Sample} (h : lookupTs ts l = some v) : ts ∈ l.map Prod.fst := by
  unfold lookupTs at h
  cases hf : l.find? (fun kv => kv.1 = ts) with
  | none => rw [hf] at h; cases h
  | some kv =>
    have hm := List.mem_of_find?_eq_some hf
    have hp := List.find?_some hf
    exact List.mem_map.mpr ⟨kv, hm, by simpa using hp⟩

theorem lookupTs_pushAll (ss : List Sample) (q : MergeQueue) (ts : Timestamp)
    (hq : tsSorted q.timstamped) :
    lookupTs ts (pushAll q ss).timstamped =
      match lookupTs ts q.timstamped with
      | some v => some v
      | none => ss.find? (fun s => s.timestamp = some ts) := by
  induction ss generalizing q with
  | nil =>
    cases h : lookupTs ts q.timstamped <;> simp [pushAll, h]
  | cons s ss ih =>
    have hstep : pushAll q (s :: ss) = pushAll (q.push s) ss := rfl
    have hs' : tsSorted (q.push s).timstamped := by
      cases hts : s.timestamp with
      | some t =>
        simp only [MergeQueue.push, hts]
        exact tsSorted_insertIfAbsent hq
      | none => simpa only [MergeQueue.push, hts] using hq
    rw [hstep, ih (q.push s) hs']
    cases hts : s.timestamp with
    | none =>
      have hq' : (q.push s).timstamped = q.timstamped := by
        simp [MergeQueue.push, hts]
      rw [hq']
      cases h : lookupTs ts q.timstamped <;>
        simp [h, List.find?_cons, hts]
    | some t =>
      by_cases het : t = ts
      · subst het
        have hq' : (q.push s).timstamped = insertIfAbsent t s q.timstamped := by
          simp [MergeQueue.push, hts]
        rw [hq', lookupTs_insertIfAbsent_self hq]
        cases h : lookupTs t q.timstamped with
        | some v => simp [h]
        | none => simp [h, List.find?_cons, hts]
      · have hq' : (q.push s).timstamped = insertIfAbsent t s q.timstamped := by
          simp [MergeQueue.push, hts]
        rw [hq', lookupTs_insertIfAbsent_ne (fun e => het e.symm)]
        cases h : lookupTs ts q.timstamped with
        | some v => simp [h]
        | none =>
          have : (fun s => s.timestamp = some ts) s = false := by
            simp [hts, het]
          simp [h, List.find?_cons, this]

theorem filter_ts_of_lookupTs_none {l : List (Timestamp × Sample)}
    {ts : Timestamp}
    (hc : ∀ kv ∈ l, (Prod.snd kv).timestamp = some kv.1)
    (hl : lookupTs ts l = none) :
    (l.map Prod.snd).filter (fun s => s.timestamp = some ts) = [] := by
  induction l with
  | nil => rfl
  | cons hd tl ih =>
    obtain ⟨k, w⟩ := hd
    rw [lookupTs_cons] at hl
    by_cases hk : k = ts
    · rw [if_pos hk] at hl; cases hl
    · rw [if_neg hk] at hl
      have hcw : w.timestamp = some k := hc (k, w) (List.mem_cons_self _ _)
      have : (fun s => s.timestamp = some ts) w = false := by
        simp [hcw, hk]
      simp only [List.map_cons, List.filter_cons, this]
      exact ih (fun kv h => hc kv (List.mem_cons_of_mem _ h)) hl

theorem filter_ts_of_lookupTs_some {l : List (Timestamp × Sample)}
    {ts : Timestamp} {v : Sample} (hs : tsSorted l)
    (hc : ∀ kv ∈ l, (Prod.snd kv).timestamp = some kv.1)
    (hl : lookupTs ts l = some v) :
    (l.map Prod.snd).filter (fun s => s.timestamp = some ts) = [v] := by
  induction l with
  | nil => cases hl
  | cons hd tl ih =>
    obtain ⟨k, w⟩ := hd
    rcases List.pairwise_cons.mp hs with ⟨hhd, htl⟩
    rw [lookupTs_cons] at hl
    have hcw : w.timestamp = some k := hc (k, w) (List.mem_cons_self _ _)
    by_cases hk : k = ts
    · rw [if_pos hk] at hl
      have hv : w = v := by cases hl; rfl
      subst hv
      have hrest : lookupTs ts tl = none := by
        apply lookupTs_eq_none
        intro kv hkv
        have hlt : Timestamp.lt ts kv.1 := hk ▸ hhd kv hkv
        exact fun e => Timestamp.lt_irrefl ts (e ▸ hlt)
      rw [List.map_cons, List.filter_cons, filter_ts_of_lookupTs_none
        (fun kv h => hc kv (List.mem_cons_of_mem _ h)) hrest]
      simp [hcw, hk]
    · rw [if_neg hk] at hl
      have hskip : (fun s => s.timestamp = some ts) w = false := by
        simp [hcw, hk]
      simp only [List.map_cons, List.filter_cons, hskip]
      exact ih htl (fun kv h => hc kv (List.mem_cons_of_mem _ h)) hl

theorem runFrom_nil (sid : Nat) (st : InnerState) : runFrom sid st [] = st :=
  rfl

theorem runFrom_cons (sid : Nat) (st : InnerState) (e : Event)
    (tr : List Event) :
    runFrom sid st (e :: tr) = runFrom sid (stepState sid st e) tr :=
  rfl

theorem runFrom_append (sid : Nat) (st : InnerState) (l1 l2 : List Event) :
    runFrom sid st (l1 ++ l2) = runFrom sid (runFrom sid st l1) l2 := by
  simp [runFrom, List.foldl_append]

theorem pending_stepState (sid : Nat) (st : InnerState) (e : Event) :
    (stepState sid st e).pending_fetches =
      match e with
      | Event.register => st.pending_fetches + 1
      | Event.release => st.pending_fetches - 1
      | _ => st.pending_fetches := by
  cases e with
  | register => rfl
  | release =>
    by_cases h : st.pending_fetches - 1 = 0 <;>
      simp [stepState, releaseHandler, h]
  | live s now =>
    by_cases h : st.pending_fetches = 0 <;>
      simp [stepState, sub_callback, h]
  | reply r => cases r <;> rfl

theorem regs_append (l1 l2 : List Event) :
    regs (l1 ++ l2) = regs l1 + regs l2 :=
  List.countP_append _ _ _

theorem rels_append (l1 l2 : List Event) :
    rels (l1 ++ l2) = rels l1 + rels l2 :=
  List.countP_append _ _ _

theorem take_succ_evAt (tr : List Event) (k : Nat) (hk : k < tr.length) :
    tr.take (k + 1) = tr.take k ++ [evAt tr k] := by
  rw [List.take_succ, List.getElem?_eq_getElem hk]
  simp [evAt, List.getD_eq_getElem?_getD, List.getElem?_eq_getElem hk]

theorem pend_take (sid : Nat) (tr : List Event) (k : Nat) (hk : k ≤ tr.length)
    (hbal : ∀ j, j ≤ k → rels (tr.take j) ≤ regs (tr.take j)) :
    (runFrom sid InnerState.init (tr.take k)).pending_fetches
      = regs (tr.take k) - rels (tr.take k) := by
  induction k with
  | zero => simp [runFrom, regs, rels, InnerState.init]
  | succ k ih =>
    have hk1 : k < tr.length := Nat.lt_of_lt_of_le (Nat.lt_succ_self k) hk
    have ihk := ih (Nat.le_of_succ_le hk)
      (fun j hj => hbal j (Nat.le_succ_of_le hj))
    have hkk := hbal k (Nat.le_succ k)
    rw [take_succ_evAt tr k hk1, runFrom_append, regs_append, rels_append]
    have hone : runFrom sid (runFrom sid InnerState.init (tr.take k))
        [evAt tr k]
        = stepState sid (runFrom sid InnerState.init (tr.take k))
            (evAt tr k) := rfl
    rw [hone, pending_stepState]
    cases evAt tr k with
    | register =>
      simp only [regs, rels, List.countP_cons, List.countP_nil]
      simp only [regs, rels] at ihk hkk
      simp
      omega
    | release =>
      simp only [regs, rels, List.countP_cons, List.countP_nil]
      simp only [regs, rels] at ihk hkk
      simp
      omega
    | live s now =>
      simp only [regs, rels, List.countP_cons, List.countP_nil]
      simp only [regs, rels] at ihk hkk
      simp
      omega
    | reply r =>
      simp only [regs, rels, List.countP_cons, List.countP_nil]
      simp only [regs, rels] at ihk hkk
      simp
      omega

theorem firesFrom_append (sid : Nat) (st : InnerState) (l1 l2 : List Event) :
    firesFrom sid st (l1 ++ l2)
      = firesFrom sid st l1 ++ firesFrom sid (runFrom sid st l1) l2 := by
  induction l1 generalizing st with
  | nil => rfl
  | cons e tl ih =>
    simp only [List.cons_append, firesFrom, runFrom_cons, List.append_eq]
    rw [ih]

theorem firesFrom_all_false (sid : Nat) (l : List Event) :
    ∀ st : InnerState,
    (∀ k, k < l.length → evAt l k = Event.release →
      2 ≤ (runFrom sid st (l.take k)).pending_fetches) →
    firesFrom sid st l = List.replicate l.length false := by
  induction l with
  | nil =>
    intro st _
    rfl
  | cons e tl ih =>
    intro st h
    have h0 : stepFires st e = false := by
      cases e with
      | release =>
        have h2 := h 0 (by simp) rfl
        simp only [List.take_zero, runFrom_nil] at h2
        simp only [stepFires, decide_eq_false_iff_not]
        omega
      | register => rfl
      | live s now => rfl
      | reply r => rfl
    rw [firesFrom, h0, List.length_cons, List.replicate_succ]
    congr 1
    apply ih
    intro k hk hrel
    have h2 := h (k + 1) (by simpa using Nat.succ_lt_succ hk)
      (by simpa [evAt, List.getD_cons_succ] using hrel)
    simpa [List.take_succ_cons, runFrom_cons] using h2

/-- C1: for any event trace interleaving N `register_handler` credits and N
`RepliesHandler` releases (live samples and fetch replies arriving
arbitrarily in between) that forms one reconciliation window — every proper
nonempty prefix holds strictly more registrations than releases — the
drain-and-deliver of the merge queue fires exactly once, at the Nth release,
which is the last event and brings the pending count to zero; it never fires
while the pending count is still positive, and that release synchronously
delivers the entire drained queue contents before it returns, leaving the
pending count at zero and the queue empty. -/
theorem C1_pending_count_correctness (sid N : Nat) (tr : List Event)
    (hN : 0 < N) (hreg : regs tr = N) (hrel : rels tr = N)
    (hwin : ∀ k, k < tr.length → 0 < k →
      rels (tr.take k) < regs (tr.take k)) :
    ∃ pre, tr = pre ++ [Event.release]
      ∧ firesFrom sid InnerState.init tr
          = List.replicate pre.length false ++ [true]
      ∧ stepOut sid (runFrom sid InnerState.init pre) Event.release
          = (runFrom sid InnerState.init pre).merge_queue.drainList
      ∧ (runFrom sid InnerState.init tr).pending_fetches = 0
      ∧ (runFrom sid InnerState.init tr).merge_queue.len = 0 := by
  rcases List.eq_nil_or_concat tr with rfl | ⟨pre, e, rfl⟩
  · simp [regs, List.countP_nil] at hreg
    omega
  rw [List.concat_eq_append] at hreg hrel hwin ⊢
  have hbal : ∀ j, rels ((pre ++ [e]).take j) ≤ regs ((pre ++ [e]).take j) := by
    intro j
    rcases Nat.eq_zero_or_pos j with rfl | hj
    · simp [regs, rels]
    · rcases lt_or_ge j (pre ++ [e]).length with hlt | hge
      · exact Nat.le_of_lt (hwin j hlt hj)
      · rw [List.take_of_length_le hge, hreg, hrel]
  have hpre_len : (pre ++ [e]).length = pre.length + 1 := by simp
  have hpre_ne : pre ≠ [] := by
    rintro rfl
    cases e <;> simp [regs, rels, List.countP_cons] at hreg hrel <;> omega
  have h0pre : 0 < pre.length := List.length_pos.mpr hpre_ne
  have htake_pre : (pre ++ [e]).take pre.length = pre := List.take_left pre [e]
  have hwin_pre := hwin pre.length (by simp [hpre_len]) h0pre
  rw [htake_pre] at hwin_pre
  have hregs_split : regs pre + regs [e] = N := by
    rw [← regs_append]
    exact hreg
  have hrels_split : rels pre + rels [e] = N := by
    rw [← rels_append]
    exact hrel
  have he : e = Event.release := by
    cases e with
    | release => rfl
    | register =>
      have a1 : regs [Event.register] = 1 := rfl
      have a2 : rels [Event.register] = 0 := rfl
      rw [a1] at hregs_split
      rw [a2] at hrels_split
      omega
    | live s now =>
      have a1 : regs [Event.live s now] = 0 := rfl
      have a2 : rels [Event.live s now] = 0 := rfl
      rw [a1] at hregs_split
      rw [a2] at hrels_split
      omega
    | reply r =>
      have a1 : regs [Event.reply r] = 0 := rfl
      have a2 : rels [Event.reply r] = 0 := rfl
      rw [a1] at hregs_split
      rw [a2] at hrels_split
      omega
  subst he
  have e1 : regs [Event.release] = 0 := rfl
  have e2 : rels [Event.release] = 1 := rfl
  rw [e1] at hregs_split
  rw [e2] at hrels_split
  have hregs_pre : regs pre = N := by omega
  have hrels_pre : rels pre = N - 1 := by omega
  have hpend_pre : (runFrom sid InnerState.init pre).pending_fetches = 1 := by
    have hp := pend_take sid (pre ++ [Event.release]) pre.length
      (by simp) (fun j _ => hbal j)
    rw [htake_pre] at hp
    rw [hp, hregs_pre, hrels_pre]
    omega
  refine ⟨pre, rfl, ?_, ?_, ?_, ?_⟩
  · rw [firesFrom_append]
    have hfpre : firesFrom sid InnerState.init pre
        = List.replicate pre.length false := by
      apply firesFrom_all_false
      intro k hk hrelk
      have htk : (pre ++ [Event.release]).take k = pre.take k :=
        List.take_append_of_le_length (Nat.le_of_lt hk)
      have hp := pend_take sid (pre ++ [Event.release]) k
        (by simp; omega) (fun j _ => hbal j)
      rw [htk] at hp
      have hevk : evAt (pre ++ [Event.release]) k = Event.release := by
        rw [evAt, List.getD_append pre [Event.release] Event.register k hk]
        exact hrelk
      have hts : (pre ++ [Event.release]).take (k + 1)
          = pre.take k ++ [Event.release] := by
        rw [take_succ_evAt _ k (by simp; omega), htk, hevk]
      have hwk := hwin (k + 1) (by simp; omega) (Nat.succ_pos k)
      rw [hts, regs_append, rels_append, e1, e2] at hwk
      rw [hp]
      omega
    rw [hfpre]
    congr 1
    have hfire : stepFires (runFrom sid InnerState.init pre) Event.release
        = true := by
      simp [stepFires, hpend_pre]
    simp [firesFrom, hfire]
  · simp [stepOut, releaseHandler, hpend_pre]
  · rw [runFrom_append]
    have hone : runFrom sid (runFrom sid InnerState.init pre) [Event.release]
        = stepState sid (runFrom sid InnerState.init pre) Event.release := rfl
    rw [hone]
    simp [stepState, releaseHandler, hpend_pre]
  · rw [runFrom_append]
    have hone : runFrom sid (runFrom sid InnerState.init pre) [Event.release]
        = stepState sid (runFrom sid InnerState.init pre) Event.release := rfl
    rw [hone]
    simp [stepState, releaseHandler, hpend_pre, MergeQueue.drain,
      MergeQueue.new, MergeQueue.len]

/-- Witness for C1 at the concrete two-overlapping-fetches trace
`demoTrace` (register, live, register, reply, release, release). -/
theorem C1_pending_count_correctness_witness :
    (0 < 2 ∧ regs demoTrace = 2 ∧ rels demoTrace = 2
      ∧ (∀ k, k < demoTrace.length → 0 < k →
          rels (demoTrace.take k) < regs (demoTrace.take k)))
    ∧ ∃ pre, demoTrace = pre ++ [Event.release]
        ∧ firesFrom 42 InnerState.init demoTrace
            = List.replicate pre.length false ++ [true]
        ∧ stepOut 42 (runFrom 42 InnerState.init pre) Event.release
            = (runFrom 42 InnerState.init pre).merge_queue.drainList
        ∧ (runFrom 42 InnerState.init demoTrace).pending_fetches = 0
        ∧ (runFrom 42 InnerState.init demoTrace).merge_queue.len = 0 :=
  ⟨⟨by decide, by decide, by decide, by decide⟩,
   C1_pending_count_correctness 42 2 demoTrace (by decide) (by decide)
     (by decide) (by decide)⟩

/-- C2: for every merge queue reachable by pushing a sequence of samples
into a fresh queue, `drain` resets the queue to empty and the drained
sequence yields all untimestamped samples first, in original arrival
order, followed by the timestamped samples in strictly ascending
timestamp order. -/
theorem C2_drain_resets_and_orders (ss : List Sample) :
    ((pushAll MergeQueue.new ss).drain).2.len = 0
    ∧ ((pushAll MergeQueue.new ss).drain).1.toList
        = ss.filter (fun s => s.timestamp = none)
          ++ (pushAll MergeQueue.new ss).timstamped.map Prod.snd
    ∧ List.Pairwise tsLT
        (((pushAll MergeQueue.new ss).drain).1.timstamped) := by
  rcases WF_pushAll WF_new ss with ⟨hsort, hcoh, _⟩
  refine ⟨rfl, ?_, ?_⟩
  · have hu := untimestamped_pushAll MergeQueue.new ss
    rw [show MergeQueue.new.untimestamped = [] from rfl,
      List.nil_append] at hu
    simp only [MergeQueue.drain, MergeQueueValues.toList]
    rw [hu]
  · simp only [MergeQueue.drain]
    exact pairwise_tsLT_of_sorted hsort hcoh

/-- C3: `push` always succeeds and deduplicates on exact timestamps with
first-write-wins: if `s0` is the first pushed sample carrying timestamp
`ts`, the drained sequence contains exactly `s0` among the samples with
that timestamp, and pushing any further sample carrying timestamp `ts`
leaves the queue entirely unchanged. -/
theorem C3_push_dedup_first_write_wins (ss : List Sample) (ts : Timestamp)
    (s0 : Sample)
    (h : ss.find? (fun s => s.timestamp = some ts) = some s0) :
    ((pushAll MergeQueue.new ss).drainList).filter
        (fun s => s.timestamp = some ts) = [s0]
    ∧ ∀ s', s'.timestamp = some ts →
        (pushAll MergeQueue.new ss).push s' = pushAll MergeQueue.new ss := by
  rcases WF_pushAll WF_new ss with ⟨hsort, hcoh, hunt⟩
  have hlook : lookupTs ts (pushAll MergeQueue.new ss).timstamped
      = some s0 := by
    rw [lookupTs_pushAll ss MergeQueue.new ts List.Pairwise.nil]
    simpa [MergeQueue.new, lookupTs] using h
  constructor
  · have hfu : ((pushAll MergeQueue.new ss).untimestamped).filter
        (fun s => s.timestamp = some ts) = [] := by
      rw [List.filter_eq_nil_iff]
      intro s hs
      simp [hunt s hs]
    simp only [MergeQueue.drainList, MergeQueue.drain,
      MergeQueueValues.toList, List.filter_append]
    rw [hfu, List.nil_append]
    exact filter_ts_of_lookupTs_some hsort hcoh hlook
  · intro s' hs'
    have hmem : ts ∈ (pushAll MergeQueue.new ss).timstamped.map Prod.fst :=
      mem_keys_of_lookupTs hlook
    simp only [MergeQueue.push, hs']
    rw [insertIfAbsent_mem_noop hsort hmem]

/-- Witness for C3: of two samples sharing timestamp (10, 7) only the
first pushed survives the drain, and a further push under that key is a
no-op. -/
theorem C3_push_dedup_first_write_wins_witness :
    ([sampleB, sampleC].find?
        (fun s => s.timestamp = some { time := 10, tid := 7 }) = some sampleB)
    ∧ (((pushAll MergeQueue.new [sampleB, sampleC]).drainList).filter
          (fun s => s.timestamp = some { time := 10, tid := 7 }) = [sampleB]
      ∧ ∀ s', s'.timestamp = some { time := 10, tid := 7 } →
          (pushAll MergeQueue.new [sampleB, sampleC]).push s'
            = pushAll MergeQueue.new [sampleB, sampleC]) :=
  ⟨by decide,
   C3_push_dedup_first_write_wins [sampleB, sampleC] { time := 10, tid := 7 }
     sampleB (by decide)⟩

/-- C4: routing of a live sample in the subscriber callback: with no
pending fetch it is forwarded unchanged to the delivery sink with no
buffering; with a pending fetch it is buffered — not delivered — into the
merge queue after being given a timestamp: a sample that already has one
keeps it (the rebuilt sample equals the original), and one that lacks it
receives the synthesized timestamp (wall clock `now`, local node id `sid`
as tie-breaker). -/
theorem C4_live_sample_routing (sid now : Nat) (st : InnerState)
    (s : Sample) :
    (st.pending_fetches = 0 →
      sub_callback sid (some now) st s = some (st, [s]))
    ∧ (st.pending_fetches ≠ 0 →
      sub_callback sid (some now) st s
          = some ({ st with
              merge_queue := st.merge_queue.push (withTs sid now s) }, [])
        ∧ (s.timestamp ≠ none → withTs sid now s = s)
        ∧ (s.timestamp = none →
            withTs sid now s
              = { s with
                  timestamp := some { time := now, tid := sid } })) := by
  constructor
  · intro h
    simp [sub_callback, h]
  · intro h
    refine ⟨by simp [sub_callback, h], ?_, ?_⟩
    · intro hts
      rcases s with ⟨ke, p, k, ts⟩
      cases ts with
      | none => exact absurd rfl hts
      | some t => rfl
    · intro hts
      rw [withTs, hts]
      rfl

/-- Witness for C4: `sampleA` passes straight through in the idle state; in
a busy state `sampleB` keeps its own timestamp while `sampleA` receives the
synthesized one. -/
theorem C4_live_sample_routing_witness :
    sub_callback 7 (some 5) InnerState.init sampleA
        = some (InnerState.init, [sampleA])
    ∧ sub_callback 7 (some 5) busyState sampleB
        = some ({ busyState with
            merge_queue := busyState.merge_queue.push (withTs 7 5 sampleB) },
          [])
    ∧ withTs 7 5 sampleB = sampleB
    ∧ withTs 7 5 sampleA
        = { sampleA with timestamp := some { time := 5, tid := 7 } } :=
  ⟨(C4_live_sample_routing 7 5 InnerState.init sampleA).1 rfl,
   ((C4_live_sample_routing 7 5 busyState sampleB).2 (by decide)).1,
   ((C4_live_sample_routing 7 5 busyState sampleB).2 (by decide)).2.1
     (by decide),
   ((C4_live_sample_routing 7 5 busyState sampleA).2 (by decide)).2.2 rfl⟩

theorem applyReplies_pending (rs : List (Except String Sample))
    (st : InnerState) :
    (applyReplies st rs).1.pending_fetches = st.pending_fetches := by
  induction rs generalizing st with
  | nil => rfl
  | cons r rs ih =>
    have hstep : (reply_sink st r).1.pending_fetches = st.pending_fetches := by
      cases r <;> rfl
    simp only [applyReplies]
    rw [ih, hstep]

/-- C5: `fetch(fetch_fn)` returns the fetch function's result verbatim, on
success and on error alike; the pending-fetch credit acquired before
invoking the fetch function is released exactly once by the time it
returns, so the pending count returns to its pre-call value; and nothing
pushed before a failure is lost — either this fetch was the last pending
one and the release delivered the entire queue as fed by the replies, or
the queue is retained exactly as the replies left it. -/
theorem C5_fetch_result_and_accounting (st : InnerState)
    (replies : List (Except String Sample)) (res : Except String Unit) :
    (fetchOp st replies res).result = res
    ∧ (fetchOp st replies res).state.pending_fetches = st.pending_fetches
    ∧ (if st.pending_fetches = 0 then
        (fetchOp st replies res).delivered
            = (applyReplies (register_handler st) replies).1.merge_queue.drainList
          ∧ (fetchOp st replies res).state.merge_queue = MergeQueue.new
       else
        (fetchOp st replies res).delivered = []
          ∧ (fetchOp st replies res).state.merge_queue
              = (applyReplies (register_handler st) replies).1.merge_queue) := by
  have hpend : (applyReplies (register_handler st) replies).1.pending_fetches
      = st.pending_fetches + 1 := by
    rw [applyReplies_pending]
    rfl
  refine ⟨rfl, ?_, ?_⟩
  · show (releaseHandler
        (applyReplies (register_handler st) replies).1).1.pending_fetches
      = st.pending_fetches
    by_cases h : st.pending_fetches = 0 <;>
      simp [releaseHandler, hpend, h]
  · by_cases h : st.pending_fetches = 0
    · rw [if_pos h]
      constructor
      · show (releaseHandler
            (applyReplies (register_handler st) replies).1).2 = _
        simp [releaseHandler, hpend, h]
      · show (releaseHandler
            (applyReplies (register_handler st) replies).1).1.merge_queue = _
        simp [releaseHandler, hpend, h, MergeQueue.drain]
    · rw [if_neg h]
      constructor
      · show (releaseHandler
            (applyReplies (register_handler st) replies).1).2 = _
        simp [releaseHandler, hpend, h]
      · show (releaseHandler
            (applyReplies (register_handler st) replies).1).1.merge_queue = _
        simp [releaseHandler, hpend, h]

/-- C7: a successfully extracted fetch-reply sample is always pushed into
the merge queue via the same `push` contract, whatever the current pending
count (the state `st` is arbitrary), and is never forwarded directly to
the delivery sink: a reply event delivers nothing. -/
theorem C7_fetch_reply_always_buffered (sid : Nat) (st : InnerState)
    (s : Sample) :
    stepState sid st (Event.reply (Except.ok s))
        = { st with merge_queue := st.merge_queue.push s }
    ∧ stepOut sid st (Event.reply (Except.ok s)) = [] :=
  ⟨rfl, rfl⟩

/-- C6: pushes of two samples bearing distinct timestamps commute — the
resulting queue, hence the drain sequence, is the same in either arrival
order — so the delivery order within a reconciliation window is independent
of the arrival interleaving among timestamped samples. -/
theorem C6_distinct_timestamps_commute (q : MergeQueue) (s1 s2 : Sample)
    (t1 t2 : Timestamp) (h1 : s1.timestamp = some t1)
    (h2 : s2.timestamp = some t2) (hne : t1 ≠ t2) :
    (q.push s1).push s2 = (q.push s2).push s1
    ∧ ((q.push s1).push s2).drainList = ((q.push s2).push s1).drainList := by
  have hq : (q.push s1).push s2 = (q.push s2).push s1 := by
    simp only [MergeQueue.push, h1, h2]
    rw [insertIfAbsent_comm hne]
  exact ⟨hq, by rw [hq]⟩

/-- Witness for C6: `sampleB` (timestamp (10,7)) and `sampleD` (timestamp
(20,3)) pushed in either order yield the same queue and drain sequence. -/
theorem C6_distinct_timestamps_commute_witness :
    (sampleB.timestamp = some { time := 10, tid := 7 }
      ∧ sampleD.timestamp = some { time := 20, tid := 3 }
      ∧ ({ time := 10, tid := 7 } : Timestamp) ≠ { time := 20, tid := 3 })
    ∧ ((MergeQueue.new.push sampleB).push sampleD
          = (MergeQueue.new.push sampleD).push sampleB
      ∧ ((MergeQueue.new.push sampleB).push sampleD).drainList
          = ((MergeQueue.new.push sampleD).push sampleB).drainList) :=
  ⟨⟨rfl, rfl, by decide⟩,
   C6_distinct_timestamps_commute MergeQueue.new sampleB sampleD _ _ rfl rfl
     (by decide)⟩

theorem applyReplies_error_state (st : InnerState)
    (l1 l2 : List (Except String Sample)) (e : String) :
    (applyReplies st (l1 ++ Except.error e :: l2)).1
      = (applyReplies st (l1 ++ l2)).1 := by
  induction l1 generalizing st with
  | nil => simp [applyReplies, reply_sink]
  | cons r l1 ih =>
    simp only [List.cons_append, applyReplies, List.append_eq]
    rw [ih]

/-- C8: an extraction failure is non-fatal and per-reply: the failing reply
leaves the state — and so the merge queue — unchanged while emitting one
observability log entry, and a fetch whose reply stream contains the
failing reply behaves, in returned result, final state and delivered
samples, exactly as the same fetch without it. -/
theorem C8_extraction_error_skipped (st : InnerState)
    (pre post : List (Except String Sample)) (e : String)
    (res : Except String Unit) :
    reply_sink st (Except.error e) = (st, [e])
    ∧ (fetchOp st (pre ++ Except.error e :: post) res).result = res
    ∧ (fetchOp st (pre ++ Except.error e :: post) res).state
        = (fetchOp st (pre ++ post) res).state
    ∧ (fetchOp st (pre ++ Except.error e :: post) res).delivered
        = (fetchOp st (pre ++ post) res).delivered := by
  have hstate := applyReplies_error_state (register_handler st) pre post e
  refine ⟨rfl, rfl, ?_, ?_⟩
  · show (releaseHandler
        (applyReplies (register_handler st)
          (pre ++ Except.error e :: post)).1).1
      = (releaseHandler
          (applyReplies (register_handler st) (pre ++ post)).1).1
    rw [hstate]
  · show (releaseHandler
        (applyReplies (register_handler st)
          (pre ++ Except.error e :: post)).1).2
      = (releaseHandler
          (applyReplies (register_handler st) (pre ++ post)).1).2
    rw [hstate]

/-- C9: while at least one fetch is pending, the live callback is total
only under the precondition that the wall clock is not before the Unix
epoch: with a pre-epoch clock (the source's
`SystemTime::now().duration_since(UNIX_EPOCH).unwrap()` panics) the
callback panics instead of buffering the sample, while every in-range
clock reading yields a result. -/
theorem C9_pre_epoch_clock_panics (sid : Nat) (st : InnerState) (s : Sample)
    (h : 1 ≤ st.pending_fetches) :
    sub_callback sid none st s = none
    ∧ ∀ now, ∃ r, sub_callback sid (some now) st s = some r := by
  have h0 : ¬ st.pending_fetches = 0 := by omega
  refine ⟨by simp [sub_callback, h0], ?_⟩
  intro now
  exact ⟨({ st with merge_queue := st.merge_queue.push (withTs sid now s) },
    []), by simp [sub_callback, h0]⟩

/-- Witness for C9: in the one-pending-fetch state the callback panics on a
pre-epoch clock and succeeds on every in-range reading. -/
theorem C9_pre_epoch_clock_panics_witness :
    1 ≤ busyState.pending_fetches
    ∧ (sub_callback 7 none busyState sampleA = none
      ∧ ∀ now, ∃ r, sub_callback 7 (some now) busyState sampleA = some r) :=
  ⟨by decide, C9_pre_epoch_clock_panics 7 busyState sampleA (by decide)⟩

/-- C10: while a fetch is pending, every live sample is buffered carrying a
timestamp, so the untimestamped partition is never touched by live
traffic; and a buffered live sample whose kept-or-synthesized timestamp
equals a key already present in the timestamped partition is silently
dropped: the state is unchanged and nothing is delivered. -/
theorem C10_live_buffered_timestamped (sid now : Nat) (st : InnerState)
    (s : Sample) (hp : st.pending_fetches ≠ 0)
    (hwf : tsSorted st.merge_queue.timstamped) :
    ∃ st', sub_callback sid (some now) st s = some (st', [])
      ∧ st'.merge_queue.untimestamped = st.merge_queue.untimestamped
      ∧ ((s.timestamp.getD { time := now, tid := sid })
            ∈ st.merge_queue.timstamped.map Prod.fst → st' = st) := by
  refine ⟨{ st with merge_queue := st.merge_queue.push (withTs sid now s) },
    by simp [sub_callback, hp], ?_, ?_⟩
  · simp [MergeQueue.push, withTs]
  · intro hmem
    have hts' : (withTs sid now s).timestamp
        = some (s.timestamp.getD { time := now, tid := sid }) := rfl
    simp only [MergeQueue.push, hts']
    rw [insertIfAbsent_mem_noop hwf hmem]

/-- Witness for C10: in a busy state already holding `sampleB` under key
(10, 7), the live arrival of `sampleC` — bearing that same timestamp — is
silently dropped. -/
theorem C10_live_buffered_timestamped_witness :
    (demoBusy.pending_fetches ≠ 0
      ∧ tsSorted demoBusy.merge_queue.timstamped)
    ∧ ∃ st', sub_callback 7 (some 5) demoBusy sampleC = some (st', [])
        ∧ st'.merge_queue.untimestamped
            = demoBusy.merge_queue.untimestamped
        ∧ ((sampleC.timestamp.getD { time := 5, tid := 7 })
              ∈ demoBusy.merge_queue.timstamped.map Prod.fst →
            st' = demoBusy) :=
  ⟨⟨by decide, by decide⟩,
   C10_live_buffered_timestamped 7 5 demoBusy sampleC (by decide)
     (by decide)⟩

end QuerySub
